import Mathlib

/-!
Shallow embedding of the GlobSEO translation memoization engine:
`src/backend/utils/lingo-translate.js` together with the cache utilities it
imports (`getCacheKey`, `getCachedTranslation`, `setCachedTranslation`,
`getMissingLanguages`, `mergeTranslations`).

Modelling conventions:
* Translation maps (JS objects keyed by language code) are association lists
  with first-match lookup; the JS spread `{...a, ...b}` becomes `b ++ a`.
* Content objects are represented by their canonical JSON serialization
  (a `String`), which is all `getCacheKey` ever inspects.
* The MD5 digest is an uninterpreted function parameter `hash`.
* The external engine invocation (`execSync` of the lingo CLI plus the
  per-language output files) is an `EngineOutcome` parameter.
* Timestamps are integers (milliseconds), as produced by `Date.now()`.
-/

/-- JS `hay.includes(needle)` over char lists: `hasInfix needle hay` is true
when `needle` occurs contiguously inside `hay`. -/
def hasInfix (needle : List Char) : List Char → Bool
  | [] => needle.isEmpty
  | c :: t => needle.isPrefixOf (c :: t) || hasInfix needle t

/-- JS `String.prototype.includes`. -/
def includes (hay needle : String) : Bool :=
  hasInfix needle.toList hay.toList

/-- Value stored for a single language in a translation result: either the
parsed output file of the engine, or the source content with an `_error`
marker (the `{...translationContent, _error: msg}` objects built in
`lingo-translate.js`). -/
inductive LangResult where
  | ok (data : String)
  | err (base : String) (msg : String)
deriving DecidableEq

/-- A translations object: language code to per-language value, as an
association list with first-match lookup. -/
abbrev Translations := List (String × LangResult)

/-- Lookup of `t[lang]` in a translations object. -/
def lookupT (t : Translations) (lang : String) : Option LangResult :=
  List.lookup lang t

/-- The key set (`Object.keys`) of a translations object, as a finset. -/
def keysOf (t : Translations) : Finset String :=
  (t.map Prod.fst).toFinset

/-- Model of `mergeTranslations` from cache-utils: `{...existing, ...newTranslations}`,
so values of `newTranslations` win for shared keys. -/
def mergeTranslations (existing newTranslations : Translations) : Translations :=
  newTranslations ++ existing

/-- The comparison used by the JS default `Array.prototype.sort()` on
strings: lexicographic order on the sequences of code units. -/
def strLeJS (a b : String) : Prop :=
  a.toList ≤ b.toList

instance : DecidableRel strLeJS := fun a b =>
  inferInstanceAs (Decidable (a.toList ≤ b.toList))

instance : IsTrans String strLeJS :=
  ⟨fun _ _ _ hab hbc => le_trans hab hbc⟩

instance : IsTotal String strLeJS :=
  ⟨fun a b => le_total a.toList b.toList⟩

instance : IsAntisymm String strLeJS :=
  ⟨fun a b hab hba => by
    have h := le_antisymm hab hba
    cases a; cases b
    simp only [String.toList] at h
    rw [h]⟩

/-- JS default `Array.prototype.sort()` on an array of strings. -/
def sortJS (l : List String) : List String :=
  l.insertionSort strLeJS

/-- The string hashed by `getCacheKey`:
`` `${sourceLang}:${sortedTargets}:${normalizedContent}` `` where
`sortedTargets` is the sorted copy of `targetLangs` joined with commas. -/
def cacheStringOf (content sourceLang : String) (targetLangs : List String) : String :=
  sourceLang ++ ":" ++ String.intercalate "," (sortJS targetLangs) ++ ":" ++ content

/-- Model of `getCacheKey` from cache-utils, with the MD5 digest abstracted as `hash`. -/
def getCacheKey (hash : String → String) (content sourceLang : String)
    (targetLangs : List String) : String :=
  hash (cacheStringOf content sourceLang targetLangs)

/-- JS `1 << n`: a 32-bit shift (ToInt32 semantics). The shift count is
`n & 31`, the resulting bit pattern is `2 ^ (n % 32)`, and the pattern is
read back as a SIGNED 32-bit value, so exponent 31 yields the negative
minimum `-(2 ^ 31)`. -/
def jsShl1 (n : Nat) : Int :=
  if n % 32 = 31 then -(2 ^ 31) else (2 : Int) ^ (n % 32)

/-- The subset selected by `i` in the inner loop of `getLanguageSubsets`:
for each index `j < languages.length` with `i & (1 << j)` truthy, keep
`languages[j]`, in index order. The unsigned 32-bit pattern of the JS mask
`1 << j` is `2 ^ (j % 32)`; the loop indices `i` supplied by the enumeration
lie below `2 ^ 30`, so their 32-bit pattern is `i` itself and the JS test is
the nat-level AND of the two patterns being non-zero. -/
def bitSubset (languages : List String) (i : Nat) : List String :=
  ((List.range languages.length).filter (fun j => i &&& 2 ^ (j % 32) != 0)).filterMap
    (fun j => languages[j]?)

/-- Model of `getLanguageSubsets` from lingo-translate: the loop runs `i`
from 1 while `i < (1 << n) - 1`, where `1 << n` is the SIGNED 32-bit shift
`jsShl1` (the subtraction of 1 is exact number arithmetic); a non-positive
bound means the loop body never runs. Each surviving `i` is mapped to its
bit-selected subset. -/
def getLanguageSubsets (languages : List String) : List (List String) :=
  ((List.range ((jsShl1 languages.length - 1).toNat)).drop 1).map
    (bitSubset languages)

/-- Model of `getMissingLanguages` from cache-utils. -/
def getMissingLanguages (existingTranslations : Translations)
    (requestedLanguages : List String) : List String :=
  if existingTranslations.isEmpty then requestedLanguages
  else requestedLanguages.filter (fun lang => (lookupT existingTranslations lang).isNone)

/-- The subset-probing loop of `processMetadataTranslations` (OPTIMIZATION 2):
fold over `getLanguageSubsets`, merging each cache hit into the accumulator
with `mergeTranslations existing subsetCache`. `subsetLookup` is the cache
probe for one subset. -/
def resolveSubsets (subsetLookup : List String → Option Translations)
    (targets : List String) : Translations :=
  (getLanguageSubsets targets).foldl
    (fun acc s =>
      match subsetLookup s with
      | some subsetCache => mergeTranslations acc subsetCache
      | none => acc)
    []

/-- The `actualTargets` filter of `processMetadataTranslations`:
`targetLanguages.filter(lang => lang !== sourceLang)`. -/
def actualTargetsOf (sourceLang : String) (targetLanguages : List String) : List String :=
  targetLanguages.filter (fun lang => lang != sourceLang)

/-- Error message thrown for authentication failures. -/
def authErrorMessage : String :=
  "Invalid Lingo.dev API key. Please check your API key and try again."

/-- Error message thrown for quota failures. -/
def quotaErrorMessage : String :=
  "Lingo.dev API quota exceeded. Please check your account limits."

/-- Error message thrown for network failures. -/
def networkErrorMessage : String :=
  "Network error while connecting to Lingo.dev. Please try again later."

/-- The outer `catch` of `processMetadataTranslations` (lines 302-336),
applied to the error object `{message := em, stderr := ese, stdout := eso}`
that reached it: classify as authentication / quota / network and throw, or
build the per-language `errorTranslations` map and return it. -/
def failurePostprocess (content : String) (existingTranslations : Translations)
    (actualTargets : List String) (em ese eso : String) :
    Except String Translations :=
  let fullError := em ++ " " ++ ese ++ " " ++ eso
  if includes fullError "Authentication failed" || includes fullError "unauthorized" ||
      includes fullError "invalid" || includes fullError "authentication" ||
      includes fullError "API key" || includes fullError "Command failed" then
    Except.error authErrorMessage
  else if includes em "quota" || includes em "limit" || includes em "rate" then
    Except.error quotaErrorMessage
  else if includes em "network" || includes em "timeout" || includes em "ECONNREFUSED" then
    Except.error networkErrorMessage
  else
    Except.ok (actualTargets.map fun lang =>
      (lang, (lookupT existingTranslations lang).getD
        (LangResult.err content ("Translation failed: " ++ em))))

/-- Engine failure handling: the inner `catch` around `execSync`
(lines 262-272) rewrites authentication failures to a fresh `Error` with
message `authErrorMessage` (and no stderr/stdout), rethrows the original
error otherwise; the rethrown error then reaches the outer catch. -/
def engineFailureOutcome (content : String) (existingTranslations : Translations)
    (actualTargets : List String) (m se so : String) :
    Except String Translations :=
  if includes (m ++ " " ++ se) "Authentication failed" ||
      includes (m ++ " " ++ se) "unauthorized" then
    failurePostprocess content existingTranslations actualTargets authErrorMessage "" ""
  else
    failurePostprocess content existingTranslations actualTargets m se so

/-- Outcome of the single engine invocation (`execSync` of the lingo CLI):
on success, the per-language output files it produced (language code to file
content); on failure, the message, stderr and stdout of the thrown error. -/
inductive EngineOutcome where
  | ok (files : List (String × String))
  | fail (message stderr stdout : String)

/-- Observable outcome of one `processMetadataTranslations` call:
the returned value or thrown error, every `setCachedTranslation` call
`(key, translations, targetLanguages)`, the language set handed to the
engine configuration (`setupI18nConfig`), the target-language list of every
`getCacheKey` call, the files created during the call, and the filesystem
contents after the call given its contents before. -/
structure RunResult where
  result : Except String Translations
  writes : List (String × Translations × List String)
  engineTargets : List (List String)
  keyTargets : List (List String)
  filesCreated : List String
  fsAfter : List String

/-- Path of the i18n configuration written by `setupI18nConfig`. -/
def i18nConfigPath : String := "frontend/i18n.json"

/-- Path of the staged locale file for language `lang`. -/
def localeFilePath (lang : String) : String :=
  "frontend/i18n/" ++ lang ++ ".json"

/-- Model of `processMetadataTranslations` from lingo-translate.js (lines 136-337).
`hash` is the digest of `getCacheKey`; `lookup` is `getCachedTranslation` at
the time of the call; `engine` is the outcome of the external invocation;
`fsBefore` the filesystem contents when the call starts; `content` the
serialized `translationContent` built from the metadata (lines 150-189);
`sourceLang` is the declared metadata language, defaulting to en. -/
def processMetadataTranslations (hash : String → String)
    (lookup : String → Option Translations) (engine : EngineOutcome)
    (fsBefore : List String) (content sourceLang : String)
    (targetLanguages : List String) : RunResult :=
  let actualTargets := actualTargetsOf sourceLang targetLanguages
  if actualTargets.isEmpty then
    { result := Except.ok [], writes := [], engineTargets := [], keyTargets := [],
      filesCreated := [], fsAfter := fsBefore }
  else
    let cacheKey := getCacheKey hash content sourceLang actualTargets
    match lookup cacheKey with
    | some cachedTranslations =>
        { result := Except.ok cachedTranslations, writes := [], engineTargets := [],
          keyTargets := [actualTargets], filesCreated := [], fsAfter := fsBefore }
    | none =>
        let subsets := getLanguageSubsets actualTargets
        let existingTranslations :=
          resolveSubsets (fun s => lookup (getCacheKey hash content sourceLang s))
            actualTargets
        let missingLanguages := getMissingLanguages existingTranslations actualTargets
        if missingLanguages.isEmpty then
          { result := Except.ok existingTranslations,
            writes := [(cacheKey, existingTranslations, actualTargets)],
            engineTargets := [], keyTargets := actualTargets :: subsets,
            filesCreated := [], fsAfter := fsBefore }
        else
          match engine with
          | EngineOutcome.ok files =>
              let newTranslations : Translations := missingLanguages.map fun lang =>
                (lang, match files.lookup lang with
                       | some fileContent => LangResult.ok fileContent
                       | none => LangResult.err content "Translation file not generated")
              let allTranslations := mergeTranslations existingTranslations newTranslations
              let created := i18nConfigPath :: localeFilePath sourceLang ::
                (missingLanguages.filter (fun lang => (files.lookup lang).isSome)).map
                  localeFilePath
              { result := Except.ok allTranslations,
                writes := [(cacheKey, allTranslations, actualTargets)],
                engineTargets := [missingLanguages],
                keyTargets := actualTargets :: subsets,
                filesCreated := created, fsAfter := fsBefore ++ created }
          | EngineOutcome.fail m se so =>
              let created := [i18nConfigPath, localeFilePath sourceLang]
              { result := engineFailureOutcome content existingTranslations actualTargets
                  m se so,
                writes := [], engineTargets := [missingLanguages],
                keyTargets := actualTargets :: subsets,
                filesCreated := created, fsAfter := fsBefore ++ created }

/-- A cache entry as written by `setCachedTranslation`
(`{translations, targetLanguages, timestamp, created}`; the `created` ISO
string is redundant with `timestamp` and omitted). -/
structure CacheEntry where
  translations : Translations
  targetLanguages : List String
  timestamp : Int
deriving DecidableEq

/-- Model of `isCacheValid` from cache-utils: an entry with a falsy timestamp is
invalid, otherwise it is valid while `now - timestamp < expirySeconds * 1000`. -/
def isCacheValid (expirySeconds now : Int) (entry : CacheEntry) : Bool :=
  if entry.timestamp = 0 then false
  else now - entry.timestamp < expirySeconds * 1000

/-- The in-process (memory fallback) branch of `getCachedTranslation`:
look the key up in the map; a stale entry is deleted and reported as a miss;
a fresh entry yields its `translations`. Only the returned value is modelled. -/
def getCachedTranslationMem (expirySeconds now : Int)
    (memoryCache : List (String × CacheEntry)) (cacheKey : String) :
    Option Translations :=
  match memoryCache.lookup cacheKey with
  | none => none
  | some entry =>
      if isCacheValid expirySeconds now entry then some entry.translations
      else none

/-- The in-process branch of `setCachedTranslation`: store the entry with
`timestamp = Date.now()` under the key (map update, modelled by prepending). -/
def setCachedTranslationMem (now : Int) (memoryCache : List (String × CacheEntry))
    (cacheKey : String) (translations : Translations)
    (targetLanguages : List String) : List (String × CacheEntry) :=
  (cacheKey, ⟨translations, targetLanguages, now⟩) :: memoryCache

instance : DecidableEq (Except String Translations) := fun a b =>
  match a, b with
  | Except.ok x, Except.ok y =>
      if h : x = y then isTrue (by rw [h]) else isFalse (by simp [h])
  | Except.ok _, Except.error _ => isFalse (by simp)
  | Except.error _, Except.ok _ => isFalse (by simp)
  | Except.error e, Except.error f =>
      if h : e = f then isTrue (by rw [h]) else isFalse (by simp [h])

/-- Concrete engine fixture: the invocation succeeds and produces an output
file for `es` only. -/
def exEngineOk : EngineOutcome := EngineOutcome.ok [("es", "hola")]

/-- Concrete fixture: 31 pairwise-distinct language codes, enough to make
the 32-bit shift in the subset enumeration overflow into the sign bit. -/
def exThirtyOneLangs : List String :=
  ["aa", "ab", "ac", "ad", "ae", "af", "ag", "ah", "ai", "aj", "ak", "al",
   "am", "an", "ao", "ap", "aq", "ar", "as", "at", "au", "av", "aw", "ax",
   "ay", "az", "ba", "bb", "bc", "bd", "be"]

/-! Helper lemmas about lookups, key sets and subsets. -/

theorem lookupT_isSome_iff (t : Translations) (lang : String) :
    (lookupT t lang).isSome ↔ lang ∈ t.map Prod.fst := by
  induction t with
  | nil => simp [lookupT]
  | cons p tl ih =>
      obtain ⟨k, v⟩ := p
      simp only [lookupT, List.lookup, List.map_cons, List.mem_cons] at *
      cases h : lang == k
      · have hne : lang ≠ k := by simpa using h
        simp [hne, ih]
      · have heq : lang = k := by simpa using h
        simp [heq]

theorem mem_keysOf_iff (t : Translations) (lang : String) :
    lang ∈ keysOf t ↔ (lookupT t lang).isSome := by
  simp [keysOf, List.mem_toFinset, lookupT_isSome_iff]

theorem keysOf_append (a b : Translations) :
    keysOf (a ++ b) = keysOf a ∪ keysOf b := by
  simp [keysOf, List.toFinset_append]

theorem and_two_pow_ne_zero (i k : Nat) : (i &&& 2 ^ k != 0) = i.testBit k := by
  rw [Nat.and_two_pow]
  cases h : i.testBit k with
  | false => simp
  | true => simp [(Nat.two_pow_pos k).ne']

theorem mem_bitSubset {languages : List String} {i : Nat} {x : String} :
    x ∈ bitSubset languages i ↔
      ∃ j, ∃ h : j < languages.length, i.testBit (j % 32) ∧
        languages.get ⟨j, h⟩ = x := by
  simp only [bitSubset, List.mem_filterMap, List.mem_filter, List.mem_range]
  constructor
  · rintro ⟨j, ⟨hj, hbit⟩, hget⟩
    rw [and_two_pow_ne_zero] at hbit
    refine ⟨j, hj, hbit, ?_⟩
    have := List.getElem?_eq_getElem hj ▸ hget
    simpa using this
  · rintro ⟨j, hj, hbit, hget⟩
    refine ⟨j, ⟨hj, ?_⟩, by simp [List.getElem?_eq_getElem hj, ← hget]⟩
    rw [and_two_pow_ne_zero]
    exact hbit

theorem bitSubset_mem_of_mem {languages : List String} {i : Nat} {x : String}
    (h : x ∈ bitSubset languages i) : x ∈ languages := by
  rcases mem_bitSubset.mp h with ⟨j, hj, _, hget⟩
  exact hget ▸ List.get_mem languages j hj

theorem subsets_mem_sub {T S : List String} (hS : S ∈ getLanguageSubsets T) :
    ∀ x ∈ S, x ∈ T := by
  intro x hx
  simp only [getLanguageSubsets, List.mem_map] at hS
  obtain ⟨i, _, rfl⟩ := hS
  exact bitSubset_mem_of_mem hx

theorem mem_actualTargetsOf {sourceLang x : String} {targetLanguages : List String} :
    x ∈ actualTargetsOf sourceLang targetLanguages ↔
      x ∈ targetLanguages ∧ x ≠ sourceLang := by
  simp [actualTargetsOf]

theorem missing_sub (existingTranslations : Translations)
    (requestedLanguages : List String) :
    ∀ x ∈ getMissingLanguages existingTranslations requestedLanguages,
      x ∈ requestedLanguages := by
  intro x hx
  unfold getMissingLanguages at hx
  split at hx
  · exact hx
  · exact (List.mem_filter.mp hx).1

theorem keysOf_foldl_subsets (f : List String → Option Translations)
    (subsets : List (List String)) (acc : Translations) (lang : String)
    (h : lang ∈ keysOf (subsets.foldl (fun acc s =>
        match f s with
        | some subsetCache => mergeTranslations acc subsetCache
        | none => acc) acc)) :
    (∃ S ∈ subsets, ∃ v, f S = some v ∧ lang ∈ keysOf v) ∨ lang ∈ keysOf acc := by
  induction subsets generalizing acc with
  | nil => exact Or.inr h
  | cons s ss ih =>
      simp only [List.foldl_cons] at h
      rcases ih _ h with hs | hacc
      · rcases hs with ⟨S, hS, v, hv, hlang⟩
        exact Or.inl ⟨S, List.mem_cons_of_mem _ hS, v, hv, hlang⟩
      · cases hf : f s with
        | none => rw [hf] at hacc; exact Or.inr hacc
        | some c =>
            rw [hf] at hacc
            simp only [mergeTranslations, keysOf_append, Finset.mem_union] at hacc
            rcases hacc with hc | hacc
            · exact Or.inl ⟨s, List.mem_cons_self s ss, c, hf, hc⟩
            · exact Or.inr hacc

theorem keysOf_resolveSubsets (f : List String → Option Translations)
    (targets : List String) (lang : String)
    (h : lang ∈ keysOf (resolveSubsets f targets)) :
    ∃ S ∈ getLanguageSubsets targets, ∃ v, f S = some v ∧ lang ∈ keysOf v := by
  rcases keysOf_foldl_subsets f (getLanguageSubsets targets) [] lang h with hs | habs
  · exact hs
  · simp [keysOf] at habs

/-! Claim theorems. -/

/-- Claim C5: the cache key is invariant under reordering of the target
language list: `getCacheKey` sorts the targets before hashing, so any two
permutations of the same target list produce the same key, for every digest
function, content and source language. -/
theorem getCacheKey_perm_invariant (hash : String → String)
    (content sourceLang : String) (T1 T2 : List String) (h : T1.Perm T2) :
    getCacheKey hash content sourceLang T1 = getCacheKey hash content sourceLang T2 := by
  unfold getCacheKey cacheStringOf sortJS
  rw [List.eq_of_perm_of_sorted
    ((List.perm_insertionSort _ T1).trans (h.trans (List.perm_insertionSort _ T2).symm))
    (List.sorted_insertionSort _ T1) (List.sorted_insertionSort _ T2)]

/-- Witness for claim C5 at a concrete permutation. -/
theorem getCacheKey_perm_invariant_witness :
    List.Perm ["fr", "es"] ["es", "fr"] ∧
      getCacheKey id "c" "en" ["fr", "es"] = getCacheKey id "c" "en" ["es", "fr"] :=
  ⟨by decide, getCacheKey_perm_invariant id "c" "en" ["fr", "es"] ["es", "fr"] (by decide)⟩

/-- Claim C7: for the in-process cache backend, an entry written at
`createdAt` probed strictly later than `createdAt` plus the time-to-live
returns `none`, which is the same observable result as a `get` on any key
absent from the cache. -/
theorem ttl_expiry_miss (expirySeconds createdAt now : Int)
    (memoryCache : List (String × CacheEntry)) (cacheKey : String)
    (translations : Translations) (targetLanguages : List String)
    (h : createdAt + expirySeconds * 1000 < now) :
    getCachedTranslationMem expirySeconds now
        (setCachedTranslationMem createdAt memoryCache cacheKey translations
          targetLanguages) cacheKey = none ∧
      ∀ absentCache : List (String × CacheEntry),
        absentCache.lookup cacheKey = none →
          getCachedTranslationMem expirySeconds now absentCache cacheKey = none := by
  constructor
  · simp only [getCachedTranslationMem, setCachedTranslationMem]
    have hl : List.lookup cacheKey
        ((cacheKey, (⟨translations, targetLanguages, createdAt⟩ : CacheEntry)) ::
          memoryCache) = some ⟨translations, targetLanguages, createdAt⟩ := by
      simp [List.lookup]
    rw [hl]
    have hv : isCacheValid expirySeconds now
        ⟨translations, targetLanguages, createdAt⟩ = false := by
      simp only [isCacheValid]
      split
      · rfl
      · simp only [decide_eq_false_iff_not]
        omega
    simp [hv]
  · intro c hc
    simp [getCachedTranslationMem, hc]

/-- Witness for claim C7 at concrete times (TTL of 86400 seconds, written at
5 ms, probed at 86400006 ms, one millisecond past expiry). -/
theorem ttl_expiry_miss_witness :
    ((5 : Int) + 86400 * 1000 < 86400006) ∧
      (getCachedTranslationMem 86400 86400006
          (setCachedTranslationMem 5 [] "k" [("es", LangResult.ok "hola")] ["es"])
          "k" = none ∧
        ∀ absentCache : List (String × CacheEntry),
          absentCache.lookup "k" = none →
            getCachedTranslationMem 86400 86400006 absentCache "k" = none) :=
  ⟨by decide,
    ttl_expiry_miss 86400 5 86400006 [] "k" [("es", LangResult.ok "hola")] ["es"]
      (by decide)⟩

theorem keysOf_map_self (l : List String) (g : String → LangResult) :
    keysOf (l.map fun lang => (lang, g lang)) = l.toFinset := by
  have h : (Prod.fst ∘ fun lang => (lang, g lang)) = id := rfl
  simp [keysOf, List.map_map, h]

/-- Claim C6: a target language equal to the declared source language is
filtered out up front: the source language never occurs in the target list
of any cache-key computation (neither the full key nor any probed subset
key) and never occurs in the language set handed to the engine
configuration. -/
theorem sourceLang_never_probed_or_sent (hash : String → String)
    (lookup : String → Option Translations) (engine : EngineOutcome)
    (fsBefore : List String) (content sourceLang : String)
    (targetLanguages : List String) :
    (∀ L ∈ (processMetadataTranslations hash lookup engine fsBefore content
        sourceLang targetLanguages).keyTargets, sourceLang ∉ L) ∧
      (∀ L ∈ (processMetadataTranslations hash lookup engine fsBefore content
        sourceLang targetLanguages).engineTargets, sourceLang ∉ L) := by
  have hnotA : sourceLang ∉ actualTargetsOf sourceLang targetLanguages := fun h =>
    (mem_actualTargetsOf.mp h).2 rfl
  have hsub : ∀ S ∈ getLanguageSubsets (actualTargetsOf sourceLang targetLanguages),
      sourceLang ∉ S := fun S hS hmem => hnotA (subsets_mem_sub hS _ hmem)
  have hmiss : ∀ E : Translations,
      sourceLang ∉ getMissingLanguages E (actualTargetsOf sourceLang targetLanguages) :=
    fun E h => hnotA (missing_sub E _ _ h)
  cases hA : (actualTargetsOf sourceLang targetLanguages).isEmpty with
  | true => simp [processMetadataTranslations, hA]
  | false =>
      cases hfull : lookup (getCacheKey hash content sourceLang
          (actualTargetsOf sourceLang targetLanguages)) with
      | some c => simp [processMetadataTranslations, hA, hfull, hnotA]
      | none =>
          cases hm : (getMissingLanguages
              (resolveSubsets (fun s => lookup (getCacheKey hash content sourceLang s))
                (actualTargetsOf sourceLang targetLanguages))
              (actualTargetsOf sourceLang targetLanguages)).isEmpty with
          | true =>
              refine ⟨?_, ?_⟩ <;>
                simp [processMetadataTranslations, hA, hfull, hm, hnotA]
              intro L hL
              exact hsub L hL
          | false =>
              cases engine with
              | ok files =>
                  refine ⟨?_, ?_⟩ <;>
                    simp [processMetadataTranslations, hA, hfull, hm, hnotA, hmiss]
                  intro L hL
                  exact hsub L hL
              | fail m se so =>
                  refine ⟨?_, ?_⟩ <;>
                    simp [processMetadataTranslations, hA, hfull, hm, hnotA, hmiss]
                  intro L hL
                  exact hsub L hL

/-- Witness for claim C6 at a concrete input in which the source language is
among the requested targets. -/
theorem sourceLang_never_probed_or_sent_witness :
    (∀ L ∈ (processMetadataTranslations id (fun _ => none) exEngineOk [] "c" "en"
        ["en", "es", "fr"]).keyTargets, "en" ∉ L) ∧
      (∀ L ∈ (processMetadataTranslations id (fun _ => none) exEngineOk [] "c" "en"
        ["en", "es", "fr"]).engineTargets, "en" ∉ L) :=
  sourceLang_never_probed_or_sent id (fun _ => none) exEngineOk [] "c" "en"
    ["en", "es", "fr"]

/-- Claim C9: every entry the engine publishes to the cache is written with
the source-filtered target list as its target set, and — provided every
cached subset entry consulted during resolution itself maps exactly the
languages of the subset it was stored under — the key set of the published
translation map is exactly that target list. The failure paths publish
nothing, which this theorem covers as well since it constrains every
performed write. -/
theorem published_entry_keys_match (hash : String → String)
    (lookup : String → Option Translations) (engine : EngineOutcome)
    (fsBefore : List String) (content sourceLang : String)
    (targetLanguages : List String)
    (h : ∀ S ∈ getLanguageSubsets (actualTargetsOf sourceLang targetLanguages),
      ∀ v, lookup (getCacheKey hash content sourceLang S) = some v →
        keysOf v = S.toFinset) :
    ∀ w ∈ (processMetadataTranslations hash lookup engine fsBefore content
        sourceLang targetLanguages).writes,
      w.2.2 = actualTargetsOf sourceLang targetLanguages ∧
        keysOf w.2.1 = (actualTargetsOf sourceLang targetLanguages).toFinset := by
  have hsub1 : keysOf (resolveSubsets
      (fun s => lookup (getCacheKey hash content sourceLang s))
      (actualTargetsOf sourceLang targetLanguages)) ⊆
      (actualTargetsOf sourceLang targetLanguages).toFinset := by
    intro l hl
    obtain ⟨S, hS, v, hv, hlv⟩ := keysOf_resolveSubsets _ _ _ hl
    rw [h S hS v hv] at hlv
    exact List.mem_toFinset.mpr (subsets_mem_sub hS _ (List.mem_toFinset.mp hlv))
  cases hA : (actualTargetsOf sourceLang targetLanguages).isEmpty with
  | true => simp [processMetadataTranslations, hA]
  | false =>
      have hAne : actualTargetsOf sourceLang targetLanguages ≠ [] := by
        simpa [List.isEmpty_iff] using hA
      cases hfull : lookup (getCacheKey hash content sourceLang
          (actualTargetsOf sourceLang targetLanguages)) with
      | some c => simp [processMetadataTranslations, hA, hfull]
      | none =>
          cases hm : (getMissingLanguages
              (resolveSubsets (fun s => lookup (getCacheKey hash content sourceLang s))
                (actualTargetsOf sourceLang targetLanguages))
              (actualTargetsOf sourceLang targetLanguages)).isEmpty with
          | true =>
              have hmnil : getMissingLanguages
                  (resolveSubsets (fun s => lookup (getCacheKey hash content sourceLang s))
                    (actualTargetsOf sourceLang targetLanguages))
                  (actualTargetsOf sourceLang targetLanguages) = [] := by
                simpa [List.isEmpty_iff] using hm
              have hkeys : keysOf (resolveSubsets
                  (fun s => lookup (getCacheKey hash content sourceLang s))
                  (actualTargetsOf sourceLang targetLanguages)) =
                  (actualTargetsOf sourceLang targetLanguages).toFinset := by
                refine Finset.Subset.antisymm hsub1 ?_
                intro l hl
                unfold getMissingLanguages at hmnil
                split at hmnil
                · exact absurd hmnil hAne
                · have hfe := List.filter_eq_nil_iff.mp hmnil l (List.mem_toFinset.mp hl)
                  rw [mem_keysOf_iff]
                  cases ho : lookupT (resolveSubsets
                      (fun s => lookup (getCacheKey hash content sourceLang s))
                      (actualTargetsOf sourceLang targetLanguages)) l with
                  | none => exact absurd (by simp [ho]) hfe
                  | some vv => simp
              intro w hw
              simp only [processMetadataTranslations, hA, hfull, hm] at hw
              simp at hw
              subst hw
              exact ⟨rfl, hkeys⟩
          | false =>
              cases engine with
              | fail m se so => simp [processMetadataTranslations, hA, hfull, hm]
              | ok files =>
                  have hunion : (getMissingLanguages
                      (resolveSubsets (fun s => lookup (getCacheKey hash content sourceLang s))
                        (actualTargetsOf sourceLang targetLanguages))
                      (actualTargetsOf sourceLang targetLanguages)).toFinset ∪
                      keysOf (resolveSubsets
                        (fun s => lookup (getCacheKey hash content sourceLang s))
                        (actualTargetsOf sourceLang targetLanguages)) =
                      (actualTargetsOf sourceLang targetLanguages).toFinset := by
                    refine Finset.Subset.antisymm ?_ ?_
                    · refine Finset.union_subset ?_ hsub1
                      intro l hl
                      exact List.mem_toFinset.mpr
                        (missing_sub _ _ _ (List.mem_toFinset.mp hl))
                    · intro l hl
                      rcases ho : lookupT (resolveSubsets
                          (fun s => lookup (getCacheKey hash content sourceLang s))
                          (actualTargetsOf sourceLang targetLanguages)) l with _ | vv
                      · refine Finset.mem_union_left _ (List.mem_toFinset.mpr ?_)
                        unfold getMissingLanguages
                        split
                        · exact List.mem_toFinset.mp hl
                        · exact List.mem_filter.mpr
                            ⟨List.mem_toFinset.mp hl, by simp [ho]⟩
                      · exact Finset.mem_union_right _
                          (mem_keysOf_iff _ _ |>.mpr (by simp [ho]))
                  intro w hw
                  simp only [processMetadataTranslations, hA, hfull, hm] at hw
                  simp at hw
                  subst hw
                  refine ⟨rfl, ?_⟩
                  rw [mergeTranslations, keysOf_append, keysOf_map_self]
                  exact hunion

/-- Witness for claim C9: a cold cache (every lookup misses) trivially
satisfies the subset-entry hypothesis, and the single write performed by the
successful run is keyed by the filtered target list with matching key set. -/
theorem published_entry_keys_match_witness :
    (∀ S ∈ getLanguageSubsets (actualTargetsOf "en" ["es", "fr"]),
        ∀ v : Translations,
          (fun _ : String => (none : Option Translations))
              (getCacheKey id "c" "en" S) = some v →
            keysOf v = S.toFinset) ∧
      ∀ w ∈ (processMetadataTranslations id (fun _ => none) exEngineOk [] "c" "en"
          ["es", "fr"]).writes,
        w.2.2 = actualTargetsOf "en" ["es", "fr"] ∧
          keysOf w.2.1 = (actualTargetsOf "en" ["es", "fr"]).toFinset :=
  ⟨fun _ _ _ hv => Option.noConfusion hv,
    published_entry_keys_match id (fun _ => none) exEngineOk [] "c" "en" ["es", "fr"]
      (fun _ _ _ hv => Option.noConfusion hv)⟩

theorem mem_drop_one_range {m i : Nat} :
    i ∈ (List.range m).drop 1 ↔ 1 ≤ i ∧ i < m := by
  cases m with
  | zero => simp
  | succ k =>
      rw [List.range_succ_eq_map]
      simp only [List.drop_succ_cons, List.drop_zero, List.mem_map, List.mem_range]
      constructor
      · rintro ⟨j, hj, rfl⟩
        omega
      · rintro ⟨h1, h2⟩
        exact ⟨i - 1, by omega, by omega⟩

theorem get_mem_bitSubset_iff {T : List String} (hT : T.Nodup) {i j : Nat}
    (hj : j < T.length) :
    T.get ⟨j, hj⟩ ∈ bitSubset T i ↔ i.testBit (j % 32) := by
  constructor
  · intro hmem
    rcases mem_bitSubset.mp hmem with ⟨j2, hj2, hbit, hget⟩
    have : (⟨j2, hj2⟩ : Fin T.length) = ⟨j, hj⟩ := (List.Nodup.get_inj_iff hT).mp hget
    have hj2eq : j2 = j := by simpa using this
    exact hj2eq ▸ hbit
  · intro hbit
    exact mem_bitSubset.mpr ⟨j, hj, hbit, rfl⟩

theorem bitSubset_toFinset_inj {T : List String} (hT : T.Nodup)
    (hn : T.length ≤ 32) {i i2 : Nat}
    (hi : i < 2 ^ T.length) (hi2 : i2 < 2 ^ T.length)
    (heq : (bitSubset T i).toFinset = (bitSubset T i2).toFinset) : i = i2 := by
  apply Nat.eq_of_testBit_eq
  intro j
  by_cases hj : j < T.length
  · have hmod : j % 32 = j := Nat.mod_eq_of_lt (by omega)
    have hiff : i.testBit j = true ↔ i2.testBit j = true := by
      conv_lhs => rw [← hmod]
      conv_rhs => rw [← hmod]
      rw [← get_mem_bitSubset_iff hT hj, ← get_mem_bitSubset_iff hT hj,
        ← List.mem_toFinset, ← List.mem_toFinset, heq]
    cases hb : i.testBit j <;> cases hb2 : i2.testBit j <;> simp_all
  · have h1 : i < 2 ^ j :=
      lt_of_lt_of_le hi (Nat.pow_le_pow_right (by norm_num) (le_of_not_lt hj))
    have h2 : i2 < 2 ^ j :=
      lt_of_lt_of_le hi2 (Nat.pow_le_pow_right (by norm_num) (le_of_not_lt hj))
    rw [Nat.testBit_lt_two_pow h1, Nat.testBit_lt_two_pow h2]

theorem exists_set_bit {i n : Nat} (hne : i ≠ 0) (hlt : i < 2 ^ n) :
    ∃ j, j < n ∧ i.testBit j = true := by
  by_contra hcon
  push_neg at hcon
  apply hne
  apply Nat.eq_of_testBit_eq
  intro j
  rw [Nat.zero_testBit]
  by_cases hj : j < n
  · rcases hb : i.testBit j with _ | _
    · rfl
    · exact absurd hb (by simpa using hcon j hj)
  · exact Nat.testBit_lt_two_pow
      (lt_of_lt_of_le hlt (Nat.pow_le_pow_right (by norm_num) (le_of_not_lt hj)))

theorem exists_unset_bit {i n : Nat} (hlt : i < 2 ^ n - 1) :
    ∃ j, j < n ∧ i.testBit j = false := by
  by_contra hcon
  push_neg at hcon
  have hi2 : i < 2 ^ n := by
    have : (1 : Nat) ≤ 2 ^ n := Nat.one_le_two_pow
    omega
  have : i = 2 ^ n - 1 := by
    apply Nat.eq_of_testBit_eq
    intro j
    rw [Nat.testBit_two_pow_sub_one]
    by_cases hj : j < n
    · simpa [hj] using hcon j hj
    · simp only [hj, decide_False]
      exact Nat.testBit_lt_two_pow
        (lt_of_lt_of_le hi2 (Nat.pow_le_pow_right (by norm_num) (le_of_not_lt hj)))
  omega

/-- Helper: for shift exponents at most 30, the 32-bit loop bound of the
subset enumeration is the exact value `2 ^ n - 1`. -/
theorem jsShl1_small {n : Nat} (hn : n ≤ 30) : (jsShl1 n - 1).toNat = 2 ^ n - 1 := by
  unfold jsShl1
  have h1 : n % 32 = n := Nat.mod_eq_of_lt (by omega)
  rw [h1, if_neg (by omega)]
  have h2 : ((2 : Int) ^ n) = ((2 ^ n : Nat) : Int) := by push_cast; ring
  rw [h2]
  have h3 : (1 : Nat) ≤ 2 ^ n := Nat.one_le_two_pow
  omega

/-- Claim C8, counterexample: with 31 pairwise-distinct languages the JS
32-bit shift of 1 by 31 evaluates to the negative minimum, so the loop bound
is negative and the routine returns NO subsets, while the claim asserts
`2 ^ 31 - 2` of them (a non-zero count). -/
theorem c8_counterexample :
    exThirtyOneLangs.Nodup ∧ exThirtyOneLangs.length = 31 ∧
      getLanguageSubsets exThirtyOneLangs = [] ∧ (2 : Nat) ^ 31 - 2 ≠ 0 := by
  decide

/-- Claim C8 (amended): applied to a duplicate-free language list `T`, the
subset enumeration behaves as claimed only while the 32-bit shift in the
loop bound stays clear of the sign bit: for a singleton it returns no
subsets; for `1 ≤ |T| ≤ 30` it returns exactly the non-empty proper subsets
of `T` — `2 ^ |T| - 2` of them, each exactly once (the list of underlying
finsets has no duplicates), and a finset occurs in the output precisely when
it is a non-empty proper subset of `T`; for `31 ≤ |T| ≤ 33` the signed
32-bit loop bound is non-positive and the routine returns no subsets at
all. -/
theorem getLanguageSubsets_exact (T : List String) (hT : T.Nodup) :
    (T.length = 1 → getLanguageSubsets T = []) ∧
      (1 ≤ T.length → T.length ≤ 30 →
        (getLanguageSubsets T).length = 2 ^ T.length - 2) ∧
      (T.length ≤ 30 → ((getLanguageSubsets T).map List.toFinset).Nodup) ∧
      (T.length ≤ 30 → ∀ F : Finset String,
        F ∈ (getLanguageSubsets T).map List.toFinset ↔
          (F ⊆ T.toFinset ∧ F.Nonempty ∧ F ≠ T.toFinset)) ∧
      (31 ≤ T.length → T.length ≤ 33 → getLanguageSubsets T = []) := by
  have hone : T.length = 1 → getLanguageSubsets T = [] := by
    intro h1
    unfold getLanguageSubsets
    rw [h1]
    have h2 : (jsShl1 1 - 1).toNat = 1 := by decide
    rw [h2]
    rfl
  have hlen : 1 ≤ T.length → T.length ≤ 30 →
      (getLanguageSubsets T).length = 2 ^ T.length - 2 := by
    intro hn hn30
    have h2 : 2 ≤ 2 ^ T.length := by
      calc (2 : Nat) = 2 ^ 1 := (pow_one 2).symm
        _ ≤ 2 ^ T.length := Nat.pow_le_pow_right (by norm_num) hn
    simp only [getLanguageSubsets, List.length_map, List.length_drop,
      List.length_range, jsShl1_small hn30]
    omega
  have hsound : T.length ≤ 30 → ∀ F ∈ (getLanguageSubsets T).map List.toFinset,
      F ⊆ T.toFinset ∧ F.Nonempty ∧ F ≠ T.toFinset := by
    intro hn30 F hF
    simp only [List.mem_map] at hF
    obtain ⟨S, hSmem, rfl⟩ := hF
    simp only [getLanguageSubsets, List.mem_map] at hSmem
    obtain ⟨i, hi, rfl⟩ := hSmem
    rw [mem_drop_one_range, jsShl1_small hn30] at hi
    obtain ⟨hi1, hi2⟩ := hi
    have hi3 : i < 2 ^ T.length := by
      have := Nat.one_le_two_pow (n := T.length)
      omega
    refine ⟨?_, ?_, ?_⟩
    · intro x hx
      exact List.mem_toFinset.mpr (bitSubset_mem_of_mem (List.mem_toFinset.mp hx))
    · obtain ⟨j, hj, hbit⟩ := exists_set_bit (by omega) hi3
      have hmod : j % 32 = j := Nat.mod_eq_of_lt (by omega)
      refine ⟨T.get ⟨j, hj⟩,
        List.mem_toFinset.mpr ((get_mem_bitSubset_iff hT hj).mpr ?_)⟩
      rw [hmod]
      exact hbit
    · obtain ⟨j, hj, hbit⟩ := exists_unset_bit hi2
      have hmod : j % 32 = j := Nat.mod_eq_of_lt (by omega)
      intro heq
      have hmem : T.get ⟨j, hj⟩ ∈ (bitSubset T i).toFinset :=
        heq ▸ List.mem_toFinset.mpr (List.get_mem T j hj)
      have hcontra := (get_mem_bitSubset_iff hT hj).mp (List.mem_toFinset.mp hmem)
      rw [hmod, hbit] at hcontra
      exact Bool.noConfusion hcontra
  have hnodup : T.length ≤ 30 →
      ((getLanguageSubsets T).map List.toFinset).Nodup := by
    intro hn30
    unfold getLanguageSubsets
    rw [List.map_map]
    refine List.Nodup.map_on ?_
      ((List.nodup_range _).sublist (List.drop_sublist _ _))
    intro i hi i2 hi2 heq
    rw [mem_drop_one_range, jsShl1_small hn30] at hi hi2
    have hb1 : i < 2 ^ T.length := by
      have := Nat.one_le_two_pow (n := T.length)
      omega
    have hb2 : i2 < 2 ^ T.length := by
      have := Nat.one_le_two_pow (n := T.length)
      omega
    exact bitSubset_toFinset_inj hT (by omega) hb1 hb2 (by simpa using heq)
  have hcomplete : T.length ≤ 30 → ∀ F : Finset String, F ⊆ T.toFinset →
      F.Nonempty → F ≠ T.toFinset →
      F ∈ (getLanguageSubsets T).map List.toFinset := by
    intro hn30 F hsubF hne hneq
    cases hn : T.length with
    | zero =>
        exfalso
        have hTnil : T = [] := List.length_eq_zero.mp hn
        obtain ⟨x, hx⟩ := hne
        have hx2 := hsubF hx
        rw [hTnil] at hx2
        simp at hx2
    | succ k =>
        have hn1 : 1 ≤ T.length := by omega
        have hTfcard : T.toFinset.card = T.length := List.toFinset_card_of_nodup hT
        have hTfne : T.toFinset ≠ ∅ := by
          have hpos : 0 < T.toFinset.card := by omega
          exact (Finset.card_pos.mp hpos).ne_empty
        have hpairsub : ({∅, T.toFinset} : Finset (Finset String)) ⊆
            T.toFinset.powerset := by
          intro x hx
          rcases Finset.mem_insert.mp hx with rfl | hx2
          · exact Finset.empty_mem_powerset _
          · rw [Finset.mem_singleton.mp hx2]
            exact Finset.mem_powerset_self _
        have hpaircard : ({∅, T.toFinset} : Finset (Finset String)).card = 2 := by
          rw [Finset.card_insert_of_not_mem (by simpa using Ne.symm hTfne),
            Finset.card_singleton]
        have hScard : (T.toFinset.powerset \ {∅, T.toFinset}).card =
            2 ^ T.length - 2 := by
          rw [Finset.card_sdiff hpairsub, Finset.card_powerset, hTfcard, hpaircard]
        have hLsub : ((getLanguageSubsets T).map List.toFinset).toFinset ⊆
            T.toFinset.powerset \ {∅, T.toFinset} := by
          intro G hG
          have hG2 := hsound hn30 G (List.mem_toFinset.mp hG)
          rw [Finset.mem_sdiff]
          refine ⟨Finset.mem_powerset.mpr hG2.1, ?_⟩
          intro hGin
          rcases Finset.mem_insert.mp hGin with rfl | hG3
          · exact hG2.2.1.ne_empty rfl
          · exact hG2.2.2 (Finset.mem_singleton.mp hG3)
        have hLcard : ((getLanguageSubsets T).map List.toFinset).toFinset.card =
            2 ^ T.length - 2 := by
          rw [List.toFinset_card_of_nodup (hnodup hn30), List.length_map,
            hlen hn1 hn30]
        have hLeq : ((getLanguageSubsets T).map List.toFinset).toFinset =
            T.toFinset.powerset \ {∅, T.toFinset} :=
          Finset.eq_of_subset_of_card_le hLsub (by rw [hScard, hLcard])
        have hFS : F ∈ T.toFinset.powerset \ {∅, T.toFinset} := by
          rw [Finset.mem_sdiff]
          refine ⟨Finset.mem_powerset.mpr hsubF, ?_⟩
          intro hFin
          rcases Finset.mem_insert.mp hFin with rfl | hF3
          · exact hne.ne_empty rfl
          · exact hneq (Finset.mem_singleton.mp hF3)
        rw [← hLeq] at hFS
        exact List.mem_toFinset.mp hFS
  have hbig : 31 ≤ T.length → T.length ≤ 33 → getLanguageSubsets T = [] := by
    intro h31 h33
    have hcases : T.length = 31 ∨ T.length = 32 ∨ T.length = 33 := by omega
    unfold getLanguageSubsets
    rcases hcases with hc | hc | hc <;> rw [hc]
    · have h : (jsShl1 31 - 1).toNat = 0 := by decide
      rw [h]
      rfl
    · have h : (jsShl1 32 - 1).toNat = 0 := by decide
      rw [h]
      rfl
    · have h : (jsShl1 33 - 1).toNat = 1 := by decide
      rw [h]
      rfl
  exact ⟨hone, hlen, hnodup, fun hn30 F =>
    ⟨fun h => hsound hn30 F h, fun ⟨h1, h2, h3⟩ => hcomplete hn30 F h1 h2 h3⟩, hbig⟩

/-- Witness for the amended claim C8 at the concrete duplicate-free list
`["es", "fr"]`. -/
theorem getLanguageSubsets_exact_witness :
    (["es", "fr"] : List String).Nodup ∧
      ((["es", "fr"] : List String).length = 1 →
        getLanguageSubsets ["es", "fr"] = []) ∧
      (1 ≤ (["es", "fr"] : List String).length →
        (["es", "fr"] : List String).length ≤ 30 →
        (getLanguageSubsets ["es", "fr"]).length =
          2 ^ (["es", "fr"] : List String).length - 2) ∧
      ((["es", "fr"] : List String).length ≤ 30 →
        ((getLanguageSubsets ["es", "fr"]).map List.toFinset).Nodup) ∧
      ((["es", "fr"] : List String).length ≤ 30 → ∀ F : Finset String,
        F ∈ (getLanguageSubsets ["es", "fr"]).map List.toFinset ↔
          (F ⊆ (["es", "fr"] : List String).toFinset ∧ F.Nonempty ∧
            F ≠ (["es", "fr"] : List String).toFinset)) ∧
      (31 ≤ (["es", "fr"] : List String).length →
        (["es", "fr"] : List String).length ≤ 33 →
        getLanguageSubsets ["es", "fr"] = []) :=
  ⟨by decide, getLanguageSubsets_exact ["es", "fr"] (by decide)⟩
